import Mathlib

/-!
Verification of the arithmetic-function pipeline in `src/mertens/Mertens.ipynb`:
`sieve` (a lazy generator yielding the primes in increasing order),
`prime_factors` (trial division by successive primes), `mu` (the Möbius
function computed from the factor list) and `M` (the recursively accumulated
summatory/Mertens function).

The Python code is embedded shallowly.  Python ints are `Nat`.  The statement
`n /= p` is Python 3 float true division, so after the first division the
loop variable of `prime_factors` holds a `float`; the embedding therefore
tracks the state as `PyNum` (an int before the first division, a float
afterwards).  Int-by-int true division produces the correctly rounded IEEE-754
double of the exact quotient — exact below `2 ^ 53`, rounded (to nearest,
ties to even) above, and an `OverflowError` once the rounded value reaches
`2 ^ 1024` — modelled by `roundToDouble`.  Every float reached by this
program is a nonnegative integer-valued double: the loop divides only when
the modulo test returned 0, and dividing an integer-valued double by an
exact divisor is exact, as is `fmod` of such values; so a float state is
stored as its exact natural-number value, with `roundToDouble` applied
whenever an int is converted (the int-to-float quotient, and the conversion
of the candidate `p` when the state is a float).

A call's result is `Option (PyOutcome α)`: `PyOutcome.val a` is a normal
return, `PyOutcome.overflowError` an uncaught `OverflowError`, and `none`
(at the given fuel) a computation still running — a result that is `none`
for every fuel models a call that never returns.  The `while n != 1` loop
and the unbounded prime scan carry explicit fuel.  CPython's recursion and
stack limits are machine resource bounds outside this model (the spec
likewise treats recursion-depth dependence as a portability concern, §9).
-/

set_option maxRecDepth 10000
set_option exponentiation.threshold 2000

namespace Mertens

/-- Membership test for the stream produced by the source's `sieve` generator:
`sieve(itertools.count(start=2))` yields exactly those `k ≥ 2` that are not
divisible by any smaller yielded number, i.e. the primes in increasing order.
So `k` is in the stream iff `2 ≤ k` and no number in `[2, k)` divides `k`. -/
def isPrime (k : Nat) : Bool :=
  decide (2 ≤ k) && (List.range (k - 2)).all (fun i => k % (i + 2) != 0)

/-- Floor of the base-2 logarithm, written with a fuel argument and an
accumulator so that it is structurally recursive and evaluates iteratively;
`fuel = q` always suffices. -/
def log2fuel : Nat → Nat → Nat → Nat
  | 0, _, acc => acc
  | fuel + 1, q, acc => if q < 2 then acc else log2fuel fuel (q / 2) (acc + 1)

/-- CPython's conversion of a nonnegative integer `q` to an IEEE-754 double
(binary64), as performed by int-by-int true division and by int-to-float
conversion: the correctly rounded value — round to nearest, ties to even on
the 53-bit significand — with `none` for the `OverflowError` raised when the
rounded value reaches `2 ^ 1024`.  Below `2 ^ 53` the conversion is exact;
above, `q` is split at the unit `2 ^ e` of the last significand place and
rounded. -/
def roundToDouble (q : Nat) : Option Nat :=
  if q < 2 ^ 53 then some q
  else
    let e := log2fuel q q 0 - 52
    let s := q / 2 ^ e
    let r := q % 2 ^ e
    let s' := if r < 2 ^ (e - 1) then s
      else if 2 ^ (e - 1) < r then s + 1
      else if s % 2 = 0 then s else s + 1
    if s' * 2 ^ e < 2 ^ 1024 then some (s' * 2 ^ e) else none

/-- The numeric state of the loop variable `n` of `prime_factors`: a Python
`int` (arbitrary precision) before the first `n /= p`, a `float` afterwards.
The floats reached by this program are nonnegative integer-valued doubles
(see the header), stored as their exact value. -/
inductive PyNum where
  | int : Nat → PyNum
  | float : Nat → PyNum
deriving DecidableEq

/-- The numeric value held by the state. -/
def PyNum.val : PyNum → Nat
  | PyNum.int n => n
  | PyNum.float m => m

/-- The tests `n == 1` / `n != 1` of the source, exact on ints and on
integer-valued doubles. -/
def PyNum.isOne : PyNum → Bool
  | PyNum.int n => n == 1
  | PyNum.float m => m == 1

/-- Result of a Python call in this program: a normal return, or an uncaught
`OverflowError` propagating to the caller. -/
inductive PyOutcome (α : Type) where
  | val : α → PyOutcome α
  | overflowError : PyOutcome α
deriving DecidableEq

/-- The test `n % p == 0` of the inner loop.  On an int state this is exact
big-integer arithmetic.  On a float state CPython first converts `p` to a
double (rounding it, or raising `OverflowError` when it is too large), and
`fmod` of integer-valued doubles is exact, so the test compares `m % pf`
with zero. -/
def pyModEqZero : PyNum → Nat → PyOutcome Bool
  | PyNum.int n, p => PyOutcome.val (n % p == 0)
  | PyNum.float m, p =>
    match roundToDouble p with
    | none => PyOutcome.overflowError
    | some pf => PyOutcome.val (m % pf == 0)

/-- The division `n /= p`, reached only after `n % p == 0` held.  From an int
state, CPython's true division returns the correctly rounded double of the
exact quotient — here the integer `n / p`, since `p` divides `n` — raising
`OverflowError` beyond the double range.  From a float state, `p` is
converted to a double first, and dividing the integer-valued `m` by its
exact divisor `pf` is exact. -/
def pyDiv : PyNum → Nat → PyOutcome PyNum
  | PyNum.int n, p =>
    match roundToDouble (n / p) with
    | none => PyOutcome.overflowError
    | some m => PyOutcome.val (PyNum.float m)
  | PyNum.float m, p =>
    match roundToDouble p with
    | none => PyOutcome.overflowError
    | some pf => PyOutcome.val (PyNum.float (m / pf))

/-- The inner `for p in sieve(itertools.count(start=2))` loop of
`prime_factors`: scan the candidates `k, k + 1, ...` in order, keep those the
sieve yields (the primes), and return the first one whose modulo test holds;
an `OverflowError` raised by the test propagates.  The source's scan is
unbounded; `fuel` bounds the number of candidates inspected and `none`
models a scan still running. -/
def findPrimeFactorPy (x : PyNum) : Nat → Nat → Option (PyOutcome Nat)
  | _, 0 => none
  | k, fuel + 1 =>
    if isPrime k then
      match pyModEqZero x k with
      | PyOutcome.overflowError => some PyOutcome.overflowError
      | PyOutcome.val true => some (PyOutcome.val k)
      | PyOutcome.val false => findPrimeFactorPy x (k + 1) fuel
    else findPrimeFactorPy x (k + 1) fuel

/-- The `while n != 1` loop of `prime_factors`, with the accumulated list
`factors` (the source appends each found prime and returns the list when the
guard fails).  `fuel` bounds the number of loop iterations.  The inner scan
is given fuel `n + 1`, which always reaches the smallest prime factor of the
current value when one exists (it is at most `n`). -/
def primeFactorsLoop : Nat → PyNum → List Nat → Option (PyOutcome (List Nat))
  | 0, _, _ => none
  | fuel + 1, x, factors =>
    if x.isOne then some (PyOutcome.val factors)
    else
      match findPrimeFactorPy x 2 (x.val + 1) with
      | none => none
      | some PyOutcome.overflowError => some PyOutcome.overflowError
      | some (PyOutcome.val p) =>
        match pyDiv x p with
        | PyOutcome.overflowError => some PyOutcome.overflowError
        | PyOutcome.val y => primeFactorsLoop fuel y (factors ++ [p])

/-- The loop of `prime_factors` started on the integer argument with an empty
factor list (the early `if n == 1: return []` coincides with the loop guard). -/
def primeFactorsAux (fuel n : Nat) : Option (PyOutcome (List Nat)) :=
  primeFactorsLoop fuel (PyNum.int n) []

/-- `prime_factors(n)` of the source, run with fuel `n`.  For every
`1 ≤ n ≤ 2 ^ 53` this fuel suffices and the bound is never hit (proved in
`primeFactorsLoop_exact`); `prime_factors 0 = none` reflects that the
source's loop runs forever on `n = 0`. -/
def prime_factors (n : Nat) : Option (PyOutcome (List Nat)) :=
  primeFactorsAux n n

/-- `mu(n)` of the source: compute `factors = prime_factors(n)`; if
`len(factors) != len(set(factors))` return `0`; otherwise return `1` when the
length is even and `-1` when it is odd.  `len(set(factors))` is modelled by
`List.dedup`; an uncaught exception from `prime_factors` propagates. -/
def mu (n : Nat) : Option (PyOutcome Int) :=
  (prime_factors n).map (fun out =>
    match out with
    | PyOutcome.overflowError => PyOutcome.overflowError
    | PyOutcome.val factors =>
      PyOutcome.val (if factors.length != factors.dedup.length then 0
        else if factors.length % 2 == 0 then 1 else -1))

/-- The integer `mu` returns on inputs where it terminates normally. -/
def muVal (n : Nat) : Int :=
  match mu n with
  | some (PyOutcome.val v) => v
  | _ => 0

/-- `M(n)` of the source: `M(1) = mu(1)` and `M(n) = mu(n) + M(n - 1)`, with
`mu(n)` evaluated first, so its divergence or exception propagates before the
recursive call.  For `n = 0` the source first evaluates `mu(0)`, which never
returns. -/
def M : Nat → Option (PyOutcome Int)
  | 0 => none
  | 1 => mu 1
  | n + 2 =>
    match mu (n + 2) with
    | none => none
    | some PyOutcome.overflowError => some PyOutcome.overflowError
    | some (PyOutcome.val a) =>
      match M (n + 1) with
      | none => none
      | some PyOutcome.overflowError => some PyOutcome.overflowError
      | some (PyOutcome.val b) => some (PyOutcome.val (a + b))

/-- Modelled from the spec (§4.3, §9): the single forward accumulation pass
over the range, `acc(1) = mu(1)` and `acc(n) = acc(n - 1) + mu(n)`, written
from the spec's words in order to compare it with the recursive `M` of the
source. -/
def accM : Nat → Int
  | 0 => 0
  | n + 1 => accM n + muVal (n + 1)

/-- `isPrime` agrees with primality. -/
lemma isPrime_iff {k : Nat} : isPrime k = true ↔ Nat.Prime k := by
  rw [Nat.prime_def_lt']
  simp only [isPrime, Bool.and_eq_true, decide_eq_true_eq, List.all_eq_true,
    List.mem_range, bne_iff_ne, ne_eq]
  constructor
  · rintro ⟨hk, h⟩
    refine ⟨hk, fun m hm2 hmk hdvd => ?_⟩
    have hi : m - 2 < k - 2 := by omega
    have := h (m - 2) hi
    have hm : m - 2 + 2 = m := by omega
    rw [hm] at this
    exact this (Nat.dvd_iff_mod_eq_zero.mp hdvd)
  · rintro ⟨hk, h⟩
    refine ⟨hk, fun i hi hmod => ?_⟩
    exact h (i + 2) (by omega) (by omega) (Nat.dvd_iff_mod_eq_zero.mpr hmod)

/-- Conversion to a double is exact below `2 ^ 53`. -/
lemma roundToDouble_small {q : Nat} (h : q < 2 ^ 53) :
    roundToDouble q = some q := by
  rw [roundToDouble, if_pos h]

/-- The numeric value of an int state. -/
lemma PyNum.val_int (n : Nat) : (PyNum.int n).val = n := rfl

/-- The numeric value of a float state. -/
lemma PyNum.val_float (m : Nat) : (PyNum.float m).val = m := rfl

/-- The guard test holds exactly on the value 1. -/
lemma PyNum.isOne_iff {x : PyNum} : x.isOne = true ↔ x.val = 1 := by
  cases x <;> simp [PyNum.isOne, PyNum.val]

/-- The guard test fails on any value other than 1. -/
lemma PyNum.isOne_eq_false {x : PyNum} (h : x.val ≠ 1) : x.isOne = false := by
  cases hx : x.isOne
  · rfl
  · exact absurd (PyNum.isOne_iff.mp hx) h

/-- For a candidate below `2 ^ 53` the modulo test is exact on both kinds of
state: the conversion of the candidate does not round. -/
lemma pyModEqZero_small (x : PyNum) {k : Nat} (hk : k < 2 ^ 53) :
    pyModEqZero x k = PyOutcome.val (x.val % k == 0) := by
  cases x with
  | int n => rfl
  | float m => simp only [pyModEqZero, roundToDouble_small hk, PyNum.val]

/-- For a divisor below `2 ^ 53` and a quotient below `2 ^ 53`, the division
is exact on both kinds of state. -/
lemma pyDiv_small (x : PyNum) {p : Nat} (hp : p < 2 ^ 53)
    (hq : x.val / p < 2 ^ 53) :
    pyDiv x p = PyOutcome.val (PyNum.float (x.val / p)) := by
  cases x with
  | int n =>
    have hq' : n / p < 2 ^ 53 := hq
    simp only [pyDiv, roundToDouble_small hq', PyNum.val]
  | float m => simp only [pyDiv, roundToDouble_small hp, PyNum.val]

/-- The least prime factor of a value at most `2 ^ 53` is below `2 ^ 53`. -/
lemma minFac_lt_two_pow_53 {v : Nat} (h2 : 2 ≤ v) (h53 : v ≤ 2 ^ 53) :
    v.minFac < 2 ^ 53 := by
  rcases Nat.eq_or_lt_of_le h53 with heq | hlt
  · have hdvd : 2 ∣ v := by rw [heq]; exact ⟨2 ^ 52, by norm_num⟩
    have h1 := Nat.minFac_le_of_dvd (le_refl 2) hdvd
    have : (2 : Nat) < 2 ^ 53 := by norm_num
    omega
  · have := Nat.minFac_le (show 0 < v by omega)
    omega

/-- The inner loop finds exactly the smallest prime factor of the state, as
soon as the fuel lets the scan reach it, whenever the value is at most
`2 ^ 53` (so no candidate conversion rounds before the factor is found). -/
lemma findPrimeFactorPy_eq_minFac {x : PyNum} (h2 : 2 ≤ x.val)
    (h53 : x.val ≤ 2 ^ 53) :
    ∀ fuel k, k ≤ x.val.minFac → x.val.minFac < k + fuel →
      findPrimeFactorPy x k fuel = some (PyOutcome.val x.val.minFac) := by
  have hmf53 : x.val.minFac < 2 ^ 53 := minFac_lt_two_pow_53 h2 h53
  intro fuel
  induction fuel with
  | zero => intro k hk hlt; omega
  | succ fuel ih =>
    intro k hk hlt
    rcases Nat.eq_or_lt_of_le hk with heq | hklt
    · have hprime : Nat.Prime x.val.minFac := Nat.minFac_prime (by omega)
      have hmod : x.val % x.val.minFac = 0 :=
        Nat.dvd_iff_mod_eq_zero.mp (Nat.minFac_dvd x.val)
      rw [findPrimeFactorPy, heq, if_pos (isPrime_iff.mpr hprime),
        pyModEqZero_small x hmf53, hmod]
      rfl
    · have hk53 : k < 2 ^ 53 := by omega
      cases hpk : isPrime k with
      | false =>
        rw [findPrimeFactorPy, hpk]
        simp only [Bool.false_eq_true, if_false]
        exact ih (k + 1) (by omega) (by omega)
      | true =>
        have hkp : Nat.Prime k := isPrime_iff.mp hpk
        have hmod : x.val % k ≠ 0 := by
          intro hmod
          have hdvd : k ∣ x.val := Nat.dvd_iff_mod_eq_zero.mpr hmod
          have := Nat.minFac_le_of_dvd hkp.two_le hdvd
          omega
        have hbe : (x.val % k == 0) = false := by
          simpa using hmod
        rw [findPrimeFactorPy, hpk, if_pos rfl, pyModEqZero_small x hk53, hbe]
        exact ih (k + 1) (by omega) (by omega)

/-- For `n ≥ 2`, `Nat.primeFactorsList` unfolds one step of its recursion. -/
lemma primeFactorsList_step {n : Nat} (hn : 2 ≤ n) :
    n.primeFactorsList = n.minFac :: (n / n.minFac).primeFactorsList := by
  obtain ⟨k, rfl⟩ : ∃ k, n = k + 2 := ⟨n - 2, by omega⟩
  rw [Nat.primeFactorsList]

/-- In the exact regime (value at most `2 ^ 53`) the loop terminates within
fuel equal to the value and returns the accumulated list followed by the
true prime factorization: every division has divisor and quotient below
`2 ^ 53`, so nothing rounds and nothing overflows. -/
lemma primeFactorsLoop_exact :
    ∀ fuel (x : PyNum) (factors : List Nat), 1 ≤ x.val → x.val ≤ 2 ^ 53 →
      x.val ≤ fuel →
      primeFactorsLoop fuel x factors =
        some (PyOutcome.val (factors ++ x.val.primeFactorsList)) := by
  intro fuel
  induction fuel with
  | zero => intro x factors h1 h53 hf; omega
  | succ fuel ih =>
    intro x factors h1 h53 hf
    rcases Nat.eq_or_lt_of_le h1 with heq | h2
    · rw [primeFactorsLoop, if_pos (PyNum.isOne_iff.mpr heq.symm), ← heq]
      simp
    · have h2 : 2 ≤ x.val := h2
      have hio : x.isOne = false := PyNum.isOne_eq_false (by omega)
      have hmf2 : 2 ≤ x.val.minFac := (Nat.minFac_prime (by omega)).two_le
      have hmf53 : x.val.minFac < 2 ^ 53 := minFac_lt_two_pow_53 h2 h53
      have hfind : findPrimeFactorPy x 2 (x.val + 1) =
          some (PyOutcome.val x.val.minFac) :=
        findPrimeFactorPy_eq_minFac h2 h53 (x.val + 1) 2 hmf2
          (by have := Nat.minFac_le (show 0 < x.val by omega); omega)
      have hqle : x.val / x.val.minFac ≤ x.val / 2 :=
        Nat.div_le_div_left hmf2 (by omega)
      have hq52 : x.val / 2 ≤ 2 ^ 52 := by
        have ha : x.val / 2 ≤ 2 ^ 53 / 2 := Nat.div_le_div_right h53
        have hb : (2 : Nat) ^ 53 / 2 = 2 ^ 52 := by norm_num
        omega
      have hq53 : x.val / x.val.minFac < 2 ^ 53 := by
        have : (2 : Nat) ^ 52 < 2 ^ 53 := by norm_num
        omega
      have hdiv : pyDiv x x.val.minFac =
          PyOutcome.val (PyNum.float (x.val / x.val.minFac)) :=
        pyDiv_small x hmf53 hq53
      have hq1 : 1 ≤ x.val / x.val.minFac :=
        (Nat.one_le_div_iff (by omega)).mpr (Nat.minFac_le (by omega))
      have hqlt : x.val / x.val.minFac < x.val :=
        Nat.div_lt_self (by omega) (by omega)
      rw [primeFactorsLoop, hio]
      simp only [Bool.false_eq_true, if_false, hfind, hdiv]
      rw [ih (PyNum.float (x.val / x.val.minFac)) (factors ++ [x.val.minFac])
        hq1 (by rw [PyNum.val_float]; omega) (by rw [PyNum.val_float]; omega)]
      rw [PyNum.val_float, primeFactorsList_step h2, List.append_assoc,
        List.singleton_append]

/-- For every `1 ≤ n ≤ 2 ^ 53`, `prime_factors` terminates within its fuel
and returns the true prime factorization list. -/
lemma prime_factors_exact {n : Nat} (h1 : 1 ≤ n) (h53 : n ≤ 2 ^ 53) :
    prime_factors n = some (PyOutcome.val n.primeFactorsList) := by
  have := primeFactorsLoop_exact n (PyNum.int n) [] h1 h53 le_rfl
  rwa [List.nil_append] at this

/-- The repeated-factor test of `mu` (`len(factors) != len(set(factors))`)
holds exactly when the list has a duplicate. -/
lemma length_ne_dedup_length_iff {l : List Nat} :
    l.length ≠ l.dedup.length ↔ ¬l.Nodup := by
  constructor
  · intro h hnd
    exact h (by rw [List.dedup_eq_self.mpr hnd])
  · intro hnd h
    exact hnd (List.dedup_eq_self.mp
      ((l.dedup_sublist.eq_of_length h.symm)))

/-- The value computed inside `mu`, rephrased through `Nodup` and `% 2 = 0`. -/
lemma mu_body_eq (fs : List Nat) :
    (if fs.length != fs.dedup.length then (0 : Int)
      else if fs.length % 2 == 0 then 1 else -1)
    = (if ¬fs.Nodup then 0 else if fs.length % 2 = 0 then 1 else -1) := by
  by_cases hnd : fs.Nodup
  · have h1 : (fs.length != fs.dedup.length) = false := by
      simp [List.dedup_eq_self.mpr hnd]
    rw [h1]
    by_cases hp : fs.length % 2 = 0 <;> simp [hp, hnd]
  · have h1 : (fs.length != fs.dedup.length) = true := by
      simpa using length_ne_dedup_length_iff.mpr hnd
    rw [h1]
    simp [hnd]

/-- On every `1 ≤ n ≤ 2 ^ 53` the source's `mu` terminates normally and
computes Mathlib's Möbius function. -/
lemma mu_exact {n : Nat} (h1 : 1 ≤ n) (h53 : n ≤ 2 ^ 53) :
    mu n = some (PyOutcome.val (ArithmeticFunction.moebius n)) := by
  rw [mu, prime_factors_exact h1 h53, Option.map_some']
  show some (PyOutcome.val (if n.primeFactorsList.length !=
      n.primeFactorsList.dedup.length then 0
    else if n.primeFactorsList.length % 2 == 0 then 1 else -1)) = _
  congr 1
  congr 1
  by_cases hsq : Squarefree n
  · have hnd : n.primeFactorsList.Nodup := hsq.nodup_primeFactorsList
    have hlen : (n.primeFactorsList.length != n.primeFactorsList.dedup.length)
        = false := by
      simp [List.dedup_eq_self.mpr hnd]
    rw [hlen]
    rw [ArithmeticFunction.moebius_apply_of_squarefree hsq,
      ArithmeticFunction.cardFactors_apply]
    rcases Nat.even_or_odd n.primeFactorsList.length with he | ho
    · have : (n.primeFactorsList.length % 2 == 0) = true := by
        simp [Nat.even_iff.mp he]
      rw [this, he.neg_one_pow]
      simp
    · have : (n.primeFactorsList.length % 2 == 0) = false := by
        simp [Nat.odd_iff.mp ho]
      rw [this]
      simp [ho.neg_one_pow]
  · have hnd : ¬n.primeFactorsList.Nodup := by
      intro hnd
      exact hsq ((Nat.squarefree_iff_nodup_primeFactorsList (by omega)).mpr hnd)
    have hlen : (n.primeFactorsList.length != n.primeFactorsList.dedup.length)
        = true := by
      simpa using length_ne_dedup_length_iff.mpr hnd
    rw [hlen, if_pos rfl,
      ArithmeticFunction.moebius_eq_zero_of_not_squarefree hsq]

/-- `muVal` is the Möbius value on the exact regime. -/
lemma muVal_exact {n : Nat} (h1 : 1 ≤ n) (h53 : n ≤ 2 ^ 53) :
    muVal n = ArithmeticFunction.moebius n := by
  rw [muVal, mu_exact h1 h53]

/-- On the exact regime the recursion of `M` terminates normally with the
partial sums of `muVal` over `[1, n]`. -/
lemma M_exact {n : Nat} (h1 : 1 ≤ n) (h53 : n ≤ 2 ^ 53) :
    M n = some (PyOutcome.val (∑ k ∈ Finset.Icc 1 n, muVal k)) := by
  induction n with
  | zero => omega
  | succ n ih =>
    rcases Nat.eq_or_lt_of_le h1 with heq | hlt
    · rw [← heq]
      rw [show M 1 = mu 1 from rfl, mu_exact le_rfl (by norm_num)]
      simp [muVal_exact le_rfl (show 1 ≤ 2 ^ 53 by norm_num)]
    · have hn1 : 1 ≤ n := by omega
      have hn53 : n ≤ 2 ^ 53 := le_trans (Nat.le_succ n) h53
      obtain ⟨m, rfl⟩ : ∃ m, n = m + 1 := ⟨n - 1, by omega⟩
      rw [show m + 1 + 1 = m + 2 from rfl, M,
        mu_exact (by omega : 1 ≤ m + 2) (by omega : m + 2 ≤ 2 ^ 53)]
      rw [show m + 2 = m + 1 + 1 from rfl, ih hn1 hn53]
      rw [Finset.sum_Icc_succ_top (by omega : 1 ≤ m + 1 + 1)]
      rw [muVal_exact (by omega : 1 ≤ m + 1 + 1) (by omega : m + 1 + 1 ≤ 2 ^ 53)]
      ring_nf

/-- The forward accumulation pass computes the partial sums of `muVal`. -/
lemma accM_eq_sum (n : Nat) : accM n = ∑ k ∈ Finset.Icc 1 n, muVal k := by
  induction n with
  | zero => simp [accM]
  | succ n ih =>
    rw [accM, ih, Finset.sum_Icc_succ_top (by omega : 1 ≤ n + 1)]

/-- On the exact regime the recursive `M` agrees with the forward
accumulation. -/
lemma M_eq_accM {n : Nat} (h1 : 1 ≤ n) (h53 : n ≤ 2 ^ 53) :
    M n = some (PyOutcome.val (accM n)) := by
  rw [M_exact h1 h53, accM_eq_sum]

/-- From a float state holding 0, the loop runs forever: it keeps finding the
factor 2 (`fmod(0.0, 2.0) == 0`) and `0.0 / 2.0` leaves the state at 0, so
every fuel bound is exhausted. -/
lemma primeFactorsLoop_float_zero :
    ∀ fuel factors, primeFactorsLoop fuel (PyNum.float 0) factors = none := by
  intro fuel
  induction fuel with
  | zero => intro factors; rfl
  | succ fuel ih =>
    intro factors
    have hfind : findPrimeFactorPy (PyNum.float 0) 2 ((PyNum.float 0).val + 1)
        = some (PyOutcome.val 2) := by decide
    have hdiv : pyDiv (PyNum.float 0) 2 = PyOutcome.val (PyNum.float 0) := by
      decide
    rw [primeFactorsLoop, show (PyNum.float 0).isOne = false from rfl]
    simp only [Bool.false_eq_true, if_false, hfind, hdiv]
    exact ih (factors ++ [2])

/-- From the int state 0, the loop diverges for every fuel: the first
iteration finds the factor 2, `0 / 2` converts to the float 0, and the float
loop never terminates. -/
lemma primeFactorsAux_zero_eq_none :
    ∀ fuel, primeFactorsAux fuel 0 = none := by
  intro fuel
  cases fuel with
  | zero => rfl
  | succ fuel =>
    have hfind : findPrimeFactorPy (PyNum.int 0) 2 ((PyNum.int 0).val + 1)
        = some (PyOutcome.val 2) := by decide
    have hdiv : pyDiv (PyNum.int 0) 2 = PyOutcome.val (PyNum.float 0) := by
      decide
    rw [primeFactorsAux, primeFactorsLoop,
      show (PyNum.int 0).isOne = false from rfl]
    simp only [Bool.false_eq_true, if_false, hfind, hdiv]
    exact primeFactorsLoop_float_zero fuel ([] ++ [2])

/-- C1 (amended): for every `1 ≤ n ≤ 2 ^ 53` — the regime in which the
source's float division is exact — `M(n)` is the sum of the Möbius values
`mu(k)` for `k = 1..n`; equivalently `M(1) = mu(1) = 1` and
`M(n) = mu(n) + M(n - 1)` for `n > 1`. -/
theorem C1_M_is_summatory (n : Nat) (h1 : 1 ≤ n) (h53 : n ≤ 2 ^ 53) :
    M n = some (PyOutcome.val (∑ k ∈ Finset.Icc 1 n, muVal k)) ∧
    (M 1 = mu 1 ∧ mu 1 = some (PyOutcome.val 1)) ∧
    (1 < n → ∃ a m, mu n = some (PyOutcome.val a) ∧
      M (n - 1) = some (PyOutcome.val m) ∧ M n = some (PyOutcome.val (a + m))) := by
  refine ⟨M_exact h1 h53, ⟨rfl, by decide⟩, fun hn => ?_⟩
  obtain ⟨k, rfl⟩ : ∃ k, n = k + 2 := ⟨n - 2, by omega⟩
  refine ⟨ArithmeticFunction.moebius (k + 2),
    ∑ j ∈ Finset.Icc 1 (k + 1), muVal j, mu_exact (by omega) h53, ?_, ?_⟩
  · exact M_exact (Nat.le_add_left 1 k) (le_trans (Nat.le_succ (k + 1)) h53)
  · rw [M, mu_exact (by omega) h53,
      M_exact (Nat.le_add_left 1 k) (le_trans (Nat.le_succ (k + 1)) h53)]

/-- C1 witness at `n = 4`. -/
theorem C1_M_is_summatory_witness :
    (1 ≤ 4 ∧ 4 ≤ 2 ^ 53) ∧
    (M 4 = some (PyOutcome.val (∑ k ∈ Finset.Icc 1 4, muVal k)) ∧
      (M 1 = mu 1 ∧ mu 1 = some (PyOutcome.val 1)) ∧
      (1 < 4 → ∃ a m, mu 4 = some (PyOutcome.val a) ∧
        M (4 - 1) = some (PyOutcome.val m) ∧
        M 4 = some (PyOutcome.val (a + m)))) :=
  ⟨⟨by decide, by decide⟩, C1_M_is_summatory 4 (by decide) (by decide)⟩

/-- C1 counterexample: at `n = 2 ^ 1100` the program's `M` does not return
the sum of Möbius values — the first division `n / 2` already exceeds the
double range, so the call raises `OverflowError` and returns no integer at
all. -/
theorem C1_counterexample :
    M (2 ^ 1100) = some PyOutcome.overflowError ∧
    M (2 ^ 1100) ≠
      some (PyOutcome.val (∑ k ∈ Finset.Icc 1 (2 ^ 1100), muVal k)) := by
  have h : M (2 ^ 1100) = some PyOutcome.overflowError := by decide
  refine ⟨h, ?_⟩
  rw [h]
  intro hc
  exact PyOutcome.noConfusion (Option.some.inj hc)

/-- C2 (amended): for every `1 ≤ n ≤ 2 ^ 53` with a squared prime factor,
`mu(n) = 0`; for every squarefree `1 ≤ n ≤ 2 ^ 53` with `k` distinct prime
factors, `mu(n) = (-1) ^ k`. -/
theorem C2_mu_squarefree_cases (n : Nat) (h1 : 1 ≤ n) (h53 : n ≤ 2 ^ 53) :
    (∀ p, Nat.Prime p → p ^ 2 ∣ n → mu n = some (PyOutcome.val 0)) ∧
    (Squarefree n →
      mu n = some (PyOutcome.val ((-1) ^ n.primeFactors.card))) := by
  constructor
  · intro p hp hdvd
    have hnsq : ¬Squarefree n := by
      rw [Nat.squarefree_iff_prime_squarefree]
      push_neg
      exact ⟨p, hp, by rwa [← pow_two]⟩
    rw [mu_exact h1 h53,
      ArithmeticFunction.moebius_eq_zero_of_not_squarefree hnsq]
  · intro hsq
    rw [mu_exact h1 h53, ArithmeticFunction.moebius_apply_of_squarefree hsq]
    have hcard : n.primeFactors.card = n.primeFactorsList.length := by
      rw [← Nat.toFinset_factors]
      exact List.toFinset_card_of_nodup hsq.nodup_primeFactorsList
    rw [ArithmeticFunction.cardFactors_apply, hcard]

/-- C2 witness at `n = 12`. -/
theorem C2_mu_squarefree_cases_witness :
    (1 ≤ 12 ∧ 12 ≤ 2 ^ 53) ∧
    ((∀ p, Nat.Prime p → p ^ 2 ∣ 12 → mu 12 = some (PyOutcome.val 0)) ∧
      (Squarefree 12 →
        mu 12 = some (PyOutcome.val ((-1) ^ (Nat.primeFactors 12).card)))) :=
  ⟨⟨by decide, by decide⟩, C2_mu_squarefree_cases 12 (by decide) (by decide)⟩

/-- C2 counterexample: `n = 2 ^ 1100` has the squared prime factor `2 ^ 2`,
yet the program's `mu` does not return `0` — the first division overflows the
double range and the call raises `OverflowError`. -/
theorem C2_counterexample :
    Nat.Prime 2 ∧ 2 ^ 2 ∣ 2 ^ 1100 ∧ 1 ≤ 2 ^ 1100 ∧
    mu (2 ^ 1100) = some PyOutcome.overflowError ∧
    mu (2 ^ 1100) ≠ some (PyOutcome.val 0) := by
  have h : mu (2 ^ 1100) = some PyOutcome.overflowError := by decide
  refine ⟨Nat.prime_two, pow_dvd_pow 2 (by norm_num),
    Nat.one_le_pow 1100 2 (by norm_num), h, ?_⟩
  rw [h]
  intro hc
  exact PyOutcome.noConfusion (Option.some.inj hc)

/-- C3 (amended): for every `1 ≤ n ≤ 2 ^ 53`, `mu(n)` returns an integer in
`{-1, 0, 1}`, equal to `0` when the computed factor list has a repeat and
otherwise to `±1` by the parity of its length; and `mu(1) = 1`. -/
theorem C3_mu_in_range (n : Nat) (h1 : 1 ≤ n) (h53 : n ≤ 2 ^ 53) :
    ∃ v fs, mu n = some (PyOutcome.val v) ∧ (v = -1 ∨ v = 0 ∨ v = 1) ∧
      prime_factors n = some (PyOutcome.val fs) ∧
      v = (if ¬fs.Nodup then 0 else if fs.length % 2 = 0 then 1 else -1) ∧
      mu 1 = some (PyOutcome.val 1) := by
  refine ⟨if ¬n.primeFactorsList.Nodup then 0
      else if n.primeFactorsList.length % 2 = 0 then 1 else -1,
    n.primeFactorsList, ?_, ?_, prime_factors_exact h1 h53, rfl, by decide⟩
  · rw [mu, prime_factors_exact h1 h53, Option.map_some']
    show some (PyOutcome.val (if n.primeFactorsList.length !=
        n.primeFactorsList.dedup.length then 0
      else if n.primeFactorsList.length % 2 == 0 then 1 else -1)) = _
    rw [mu_body_eq]
  · by_cases hnd : n.primeFactorsList.Nodup
    · by_cases hp : n.primeFactorsList.length % 2 = 0 <;> simp [hnd, hp]
    · simp [hnd]

/-- C3 witness at `n = 8`. -/
theorem C3_mu_in_range_witness :
    (1 ≤ 8 ∧ 8 ≤ 2 ^ 53) ∧
    (∃ v fs, mu 8 = some (PyOutcome.val v) ∧ (v = -1 ∨ v = 0 ∨ v = 1) ∧
      prime_factors 8 = some (PyOutcome.val fs) ∧
      v = (if ¬fs.Nodup then 0 else if fs.length % 2 = 0 then 1 else -1) ∧
      mu 1 = some (PyOutcome.val 1)) :=
  ⟨⟨by decide, by decide⟩, C3_mu_in_range 8 (by decide) (by decide)⟩

/-- C3 counterexample: at `n = 2 ^ 1100` the program's `mu` returns none of
`-1`, `0`, `1` — it raises `OverflowError` at the first division. -/
theorem C3_counterexample :
    1 ≤ 2 ^ 1100 ∧ mu (2 ^ 1100) = some PyOutcome.overflowError ∧
    mu (2 ^ 1100) ≠ some (PyOutcome.val (-1)) ∧
    mu (2 ^ 1100) ≠ some (PyOutcome.val 0) ∧
    mu (2 ^ 1100) ≠ some (PyOutcome.val 1) := by
  have h : mu (2 ^ 1100) = some PyOutcome.overflowError := by decide
  refine ⟨Nat.one_le_pow 1100 2 (by norm_num), h, ?_, ?_, ?_⟩ <;>
    (rw [h]; intro hc; exact PyOutcome.noConfusion (Option.some.inj hc))

/-- C4 (amended): for every `1 ≤ n ≤ 2 ^ 53`, the product of the list
returned by `prime_factors(n)` equals `n`. -/
theorem C4_prime_factors_prod (n : Nat) (h1 : 1 ≤ n) (h53 : n ≤ 2 ^ 53) :
    ∃ fs, prime_factors n = some (PyOutcome.val fs) ∧ fs.prod = n :=
  ⟨n.primeFactorsList, prime_factors_exact h1 h53,
    Nat.prod_primeFactorsList (by omega)⟩

/-- C4 witness at `n = 12`. -/
theorem C4_prime_factors_prod_witness :
    (1 ≤ 12 ∧ 12 ≤ 2 ^ 53) ∧
    (∃ fs, prime_factors 12 = some (PyOutcome.val fs) ∧ fs.prod = 12) :=
  ⟨⟨by decide, by decide⟩, C4_prime_factors_prod 12 (by decide) (by decide)⟩

/-- C4 counterexample: at `n = 2 ^ 54 + 2` the first division
`n / 2 = 2 ^ 53 + 1` rounds (ties-to-even) to `2 ^ 53`, so the program
returns the list `[2] * 54`, whose product `2 ^ 54` is not `n`. -/
theorem C4_counterexample :
    prime_factors (2 ^ 54 + 2) =
      some (PyOutcome.val (List.replicate 54 2)) ∧
    (List.replicate 54 2).prod ≠ 2 ^ 54 + 2 :=
  ⟨by decide, by decide⟩

/-- C5 (amended): for every `1 ≤ n ≤ 2 ^ 53`, `prime_factors(n)` returns the
list of prime factors of `n` with multiplicity (the count of each prime is
its exponent in the factorization), in non-decreasing order, all elements
prime; the empty list for `n = 1`. -/
theorem C5_prime_factors_sorted_prime (n : Nat) (h1 : 1 ≤ n)
    (h53 : n ≤ 2 ^ 53) :
    ∃ fs, prime_factors n = some (PyOutcome.val fs) ∧
      (∀ p ∈ fs, Nat.Prime p) ∧ List.Sorted (· ≤ ·) fs ∧
      (∀ p, fs.count p = n.factorization p) ∧ (n = 1 → fs = []) :=
  ⟨n.primeFactorsList, prime_factors_exact h1 h53,
    fun _ hp => Nat.prime_of_mem_primeFactorsList hp,
    Nat.primeFactorsList_sorted n,
    fun _ => Nat.primeFactorsList_count_eq,
    fun h => by rw [h]; exact Nat.primeFactorsList_one⟩

/-- C5 witness at `n = 12`. -/
theorem C5_prime_factors_sorted_prime_witness :
    (1 ≤ 12 ∧ 12 ≤ 2 ^ 53) ∧
    (∃ fs, prime_factors 12 = some (PyOutcome.val fs) ∧
      (∀ p ∈ fs, Nat.Prime p) ∧ List.Sorted (· ≤ ·) fs ∧
      (∀ p, fs.count p = Nat.factorization 12 p) ∧ (12 = 1 → fs = [])) :=
  ⟨⟨by decide, by decide⟩,
    C5_prime_factors_sorted_prime 12 (by decide) (by decide)⟩

/-- C5 counterexample: at `n = 2 ^ 54 + 2` the program returns `[2] * 54`,
which is not the prime factorization of `n` (its product is `2 ^ 54 ≠ n`),
because the first float division rounds the quotient. -/
theorem C5_counterexample :
    prime_factors (2 ^ 54 + 2) =
      some (PyOutcome.val (List.replicate 54 2)) ∧
    List.replicate 54 2 ≠ Nat.primeFactorsList (2 ^ 54 + 2) := by
  refine ⟨by decide, fun hc => ?_⟩
  have hprod := congrArg List.prod hc
  rw [Nat.prod_primeFactorsList (by norm_num)] at hprod
  exact absurd hprod (by decide)

/-- C6 counterexample: at the concrete invalid input `n = 0 < 1`, none of
the three functions reports an invalid-argument failure.  The source contains
no validation or raise for this case; with its standard fuel each embedded
function yields `none`, which models the source's infinite loop on `n = 0`,
not an error reported to the caller (`C6_diverges_on_zero` shows no fuel
bound changes this). -/
theorem C6_counterexample :
    prime_factors 0 = none ∧ mu 0 = none ∧ M 0 = none :=
  ⟨rfl, rfl, rfl⟩

/-- C6 (amended): a call with `n < 1` (concretely `n = 0`) is not rejected
with an invalid-argument error; instead the trial-division loop never
terminates — for every fuel bound the computation is still unfinished — so
`prime_factors`, `mu` and `M` never return any result, right or wrong, and
never raise. -/
theorem C6_diverges_on_zero (fuel : Nat) :
    primeFactorsAux fuel 0 = none ∧ prime_factors 0 = none ∧
      mu 0 = none ∧ M 0 = none :=
  ⟨primeFactorsAux_zero_eq_none fuel, rfl, rfl, rfl⟩

/-- C7 (amended): for every `1 ≤ n ≤ 2 ^ 53` the three functions terminate
normally and are deterministic functions of `n` alone: the outer loop
finishes with the same value under every sufficient fuel bound,
`prime_factors` and `mu` return fixed values, and the recursion of `M`
reaches its base case and returns a value. -/
theorem C7_terminates_deterministic (n : Nat) (h1 : 1 ≤ n)
    (h53 : n ≤ 2 ^ 53) :
    (∀ fuel, n ≤ fuel →
      primeFactorsAux fuel n = some (PyOutcome.val n.primeFactorsList)) ∧
    prime_factors n = some (PyOutcome.val n.primeFactorsList) ∧
    mu n = some (PyOutcome.val (ArithmeticFunction.moebius n)) ∧
    (∃ m, M n = some (PyOutcome.val m)) := by
  refine ⟨fun fuel hf => ?_, prime_factors_exact h1 h53, mu_exact h1 h53,
    ⟨_, M_exact h1 h53⟩⟩
  have := primeFactorsLoop_exact fuel (PyNum.int n) [] h1 h53 hf
  rwa [List.nil_append] at this

/-- C7 witness at `n = 6`. -/
theorem C7_terminates_deterministic_witness :
    (1 ≤ 6 ∧ 6 ≤ 2 ^ 53) ∧
    ((∀ fuel, 6 ≤ fuel →
        primeFactorsAux fuel 6 = some (PyOutcome.val (Nat.primeFactorsList 6))) ∧
      prime_factors 6 = some (PyOutcome.val (Nat.primeFactorsList 6)) ∧
      mu 6 = some (PyOutcome.val (ArithmeticFunction.moebius 6)) ∧
      (∃ m, M 6 = some (PyOutcome.val m))) :=
  ⟨⟨by decide, by decide⟩,
    C7_terminates_deterministic 6 (by decide) (by decide)⟩

/-- C7 counterexample: at `n = 2 ^ 1100` the trial-division loop never
reaches quotient 1 — the first division raises `OverflowError` — and all
three functions propagate the exception instead of returning a value. -/
theorem C7_counterexample :
    prime_factors (2 ^ 1100) = some PyOutcome.overflowError ∧
    mu (2 ^ 1100) = some PyOutcome.overflowError ∧
    M (2 ^ 1100) = some PyOutcome.overflowError ∧
    prime_factors (2 ^ 1100) ≠
      some (PyOutcome.val (Nat.primeFactorsList (2 ^ 1100))) := by
  have h : prime_factors (2 ^ 1100) = some PyOutcome.overflowError := by decide
  refine ⟨h, by decide, by decide, ?_⟩
  rw [h]
  intro hc
  exact PyOutcome.noConfusion (Option.some.inj hc)

/-- C8 (amended): for every `1 ≤ N ≤ 2 ^ 53`, the sequence `M(1), ..., M(N)`
computed by the single forward accumulation pass of the spec equals the
sequence computed by the recursive definition of the source. -/
theorem C8_accumulation_refines_M (N : Nat) (_h1 : 1 ≤ N)
    (h53 : N ≤ 2 ^ 53) :
    ((List.range N).map fun i => some (PyOutcome.val (accM (i + 1)))) =
      ((List.range N).map fun i => M (i + 1)) := by
  refine List.map_congr_left fun i hi => ?_
  rw [List.mem_range] at hi
  exact (M_eq_accM (Nat.le_add_left 1 i) (le_trans (by omega) h53)).symm

/-- C8 witness at `N = 3`. -/
theorem C8_accumulation_refines_M_witness :
    (1 ≤ 3 ∧ 3 ≤ 2 ^ 53) ∧
    ((List.range 3).map fun i => some (PyOutcome.val (accM (i + 1)))) =
      ((List.range 3).map fun i => M (i + 1)) :=
  ⟨⟨by decide, by decide⟩,
    C8_accumulation_refines_M 3 (by decide) (by decide)⟩

/-- C8 counterexample: at index `n = 2 ^ 1100` the recursive `M` of the
source raises `OverflowError` and yields no integer, while the accumulation
pass of the spec produces the integer `accM (2 ^ 1100)`; so for any range
bound `N ≥ 2 ^ 1100` the two computations do not yield the same sequence of
values. -/
theorem C8_counterexample :
    M (2 ^ 1100) = some PyOutcome.overflowError ∧
    some PyOutcome.overflowError ≠
      some (PyOutcome.val (accM (2 ^ 1100))) := by
  refine ⟨by decide, ?_⟩
  intro hc
  exact PyOutcome.noConfusion (Option.some.inj hc)

/-- C9: the concrete scenario values of the spec, all in the range where the
float division of the source is provably exact. -/
theorem C9_concrete_values :
    mu 1 = some (PyOutcome.val 1) ∧ mu 2 = some (PyOutcome.val (-1)) ∧
    mu 4 = some (PyOutcome.val 0) ∧ mu 6 = some (PyOutcome.val 1) ∧
    mu 30 = some (PyOutcome.val (-1)) ∧
    M 1 = some (PyOutcome.val 1) ∧ M 2 = some (PyOutcome.val 0) ∧
    M 3 = some (PyOutcome.val (-1)) ∧ M 4 = some (PyOutcome.val (-1)) ∧
    M 10 = some (PyOutcome.val (-1)) ∧
    prime_factors 1 = some (PyOutcome.val []) ∧
    prime_factors 12 = some (PyOutcome.val [2, 2, 3]) ∧
    prime_factors 17 = some (PyOutcome.val [17]) := by
  decide

/-- C10 (amended): the computed Möbius function is multiplicative on coprime
arguments within the exact regime: for `a, b ≥ 1` with `gcd(a, b) = 1` and
`a * b ≤ 2 ^ 53`, `mu(a * b) = mu(a) * mu(b)`. -/
theorem C10_mu_multiplicative (a b : Nat) (ha : 1 ≤ a) (hb : 1 ≤ b)
    (hab : Nat.gcd a b = 1) (hbound : a * b ≤ 2 ^ 53) :
    ∃ x y z, mu a = some (PyOutcome.val x) ∧ mu b = some (PyOutcome.val y) ∧
      mu (a * b) = some (PyOutcome.val z) ∧ z = x * y := by
  have hab1 : 1 ≤ a * b := Nat.mul_pos ha hb
  have haa : a ≤ a * b := by
    calc a = a * 1 := (Nat.mul_one a).symm
    _ ≤ a * b := Nat.mul_le_mul_left a hb
  have hbb : b ≤ a * b := by
    calc b = 1 * b := (Nat.one_mul b).symm
    _ ≤ a * b := Nat.mul_le_mul_right b ha
  refine ⟨_, _, _, mu_exact ha (le_trans haa hbound),
    mu_exact hb (le_trans hbb hbound), mu_exact hab1 hbound, ?_⟩
  exact ArithmeticFunction.IsMultiplicative.map_mul_of_coprime
    ArithmeticFunction.isMultiplicative_moebius hab

/-- C10 witness at `a = 6`, `b = 5`. -/
theorem C10_mu_multiplicative_witness :
    (1 ≤ 6 ∧ 1 ≤ 5 ∧ Nat.gcd 6 5 = 1 ∧ 6 * 5 ≤ 2 ^ 53) ∧
    (∃ x y z, mu 6 = some (PyOutcome.val x) ∧ mu 5 = some (PyOutcome.val y) ∧
      mu (6 * 5) = some (PyOutcome.val z) ∧ z = x * y) :=
  ⟨⟨by decide, by decide, by decide, by decide⟩,
    C10_mu_multiplicative 6 5 (by decide) (by decide) (by decide) (by decide)⟩

/-- C10 counterexample: `a = 3` and `b = 2 ^ 1024` are coprime, the program
returns `mu(3) = -1` and `mu(2 ^ 1024) = 0` (a long but exact chain of
divisions by 2), yet `mu(3 * 2 ^ 1024)` is not their product `0`: the first
division `(3 * 2 ^ 1024) / 2 = 3 * 2 ^ 1023` exceeds the double range and
the call raises `OverflowError` instead of returning an integer. -/
theorem C10_counterexample :
    Nat.gcd 3 (2 ^ 1024) = 1 ∧ mu 3 = some (PyOutcome.val (-1)) ∧
    mu (2 ^ 1024) = some (PyOutcome.val 0) ∧
    mu (3 * 2 ^ 1024) = some PyOutcome.overflowError ∧
    mu (3 * 2 ^ 1024) ≠ some (PyOutcome.val ((-1) * 0)) := by
  have hov : mu (3 * 2 ^ 1024) = some PyOutcome.overflowError := by decide
  have hpf : prime_factors (2 ^ 1024) =
      some (PyOutcome.val (List.replicate 1024 2)) := by decide
  have hmu : mu (2 ^ 1024) = some (PyOutcome.val 0) := by
    rw [mu, hpf, Option.map_some']
    have hd : (List.replicate 1024 (2 : Nat)).dedup = [2] :=
      List.replicate_dedup (by norm_num)
    have hlen : ((List.replicate 1024 (2 : Nat)).length !=
        (List.replicate 1024 (2 : Nat)).dedup.length) = true := by
      rw [hd, List.length_replicate]
      rfl
    show some (PyOutcome.val (if (List.replicate 1024 (2 : Nat)).length !=
        (List.replicate 1024 (2 : Nat)).dedup.length then 0
      else if (List.replicate 1024 (2 : Nat)).length % 2 == 0 then 1
      else -1)) = _
    rw [hlen, if_pos rfl]
  refine ⟨by decide, by decide, hmu, hov, ?_⟩
  rw [hov]
  intro hc
  exact PyOutcome.noConfusion (Option.some.inj hc)

end Mertens
